import Mathlib

/-!
# CORDIC tilt-angle system: shallow embedding of `software/main.c`

The bare-metal program talks to two memory-mapped peripherals (an SPI master
wired to an ADXL345 accelerometer, and a CORDIC angle engine) and hands
readings from a timer interrupt to the main loop through three globals.

Conventions of the embedding:

* every memory-mapped access, delay and console line is an `Event`; a C
  function becomes a Lean function returning the list of events it performs
  (in program order) together with its return value;
* a value read from a peripheral register is an input of the function that
  reads it (the hardware is the environment);
* `u8`/`u32` values are `Nat`, `short`/`int` values are `Int`; conversions
  between widths are written out with `%`.
-/

namespace Cordic

/-! ## Hardware addresses and register offsets (the `#define`s) -/

def SPI_BASE : Nat := 0x43C10000
def CORDIC_BASE : Nat := 0x43C00000

def SPI_CFG_REG : Nat := 0x00
def SPI_TX_CNT_REG : Nat := 0x04
def SPI_TX_DATA0 : Nat := 0x08
def SPI_TX_DATA1 : Nat := 0x0C
def SPI_RX_DATA0 : Nat := 0x18
def SPI_RX_DATA1 : Nat := 0x1C

def CORDIC_Y_REG : Nat := 0x00
def CORDIC_Z_REG : Nat := 0x04
def CORDIC_CTRL_REG : Nat := 0x08
def CORDIC_STATUS_REG : Nat := 0x0C
def CORDIC_ANGLE_REG : Nat := 0x10

def ADXL_DEVID : Nat := 0x00
def ADXL_POWER_CTL : Nat := 0x2D
def ADXL_DATA_X0 : Nat := 0x32
def ADXL_DATA_FORMAT : Nat := 0x31

/-! ## Machine integers -/

/-- Conversion of an integer to `short`: keep the low 16 bits, read them as
two's complement. -/
def to_short (n : Int) : Int := (n + 32768) % 65536 - 32768

/-- Conversion of an integer to `int` (32 bits, two's complement); `smpl_cnt++`
is taken to wrap around. -/
def to_int (n : Int) : Int := (n + 2147483648) % 4294967296 - 2147483648

/-- Conversion of an integer to `unsigned int`: its 32-bit pattern. -/
def to_u32 (n : Int) : Nat := (n % 4294967296).toNat

/-- Conversion of an unsigned value to `u8`. -/
def to_u8 (n : Nat) : Nat := n % 256

/-! ## Observable events -/

/-- Console lines of the program, one constructor per `xil_printf` call that
the development looks at; the arguments are the integers that are printed. -/
inductive Msg where
  /-- `"ADXL345 Device ID: 0x%02X (expect 0xE5)"` -/
  | device_id (devid : Nat)
  /-- `"WARNING: Wrong device ID!"` -/
  | wrong_device_id
  /-- `"ADXL345 configured"` -/
  | configured
  /-- the detailed report of the main loop: `"Sample %d:"`, `"  Y=%d Z=%d"`,
  and the raw angle of the `"  HW: %d (Q3.12) = ..."` line together with the
  radian value `hw_rad` that the same line prints after it -/
  | sample (smpl_cnt loc_y loc_z hw_ang : Int) (hw_rad : ℚ)
  deriving DecidableEq

/-- One externally visible action of the program. -/
inductive Event where
  /-- `WR_REG(base, off, val)`, with `addr = base + off` -/
  | wr (addr val : Nat)
  /-- `RD_REG(base, off)` that returned `val` -/
  | rd (addr val : Nat)
  /-- `usleep(us)` -/
  | usleep (us : Nat)
  /-- `xil_printf(...)` -/
  | print (m : Msg)
  deriving DecidableEq

open Event

/-! ## Serial peripheral driver -/

/-- `spi_wait_done`: the fixed settle delay. -/
def spi_wait_done : List Event := [usleep 5000]

/-- `spi_write_reg(addr, data)`. -/
def spi_write_reg (addr data : Nat) : List Event :=
  let txbuf := ((addr <<< 0) ||| (data <<< 8)) % 4294967296
  [wr (SPI_BASE + SPI_TX_DATA0) txbuf, wr (SPI_BASE + SPI_TX_CNT_REG) 2] ++ spi_wait_done

/-- `spi_read_reg(addr)`; `rx0` is the content of `RX_DATA0` when it is read. -/
def spi_read_reg (addr : Nat) (rx0 : Nat) : List Event × Nat :=
  let txbuf := (0x80 ||| addr) % 4294967296
  let rxbuf := rx0
  ([wr (SPI_BASE + SPI_TX_DATA0) txbuf, wr (SPI_BASE + SPI_TX_CNT_REG) 2]
      ++ spi_wait_done ++ [rd (SPI_BASE + SPI_RX_DATA0) rxbuf],
    to_u8 ((rxbuf >>> 8) &&& 0xFF))

/-! ## Accelerometer client -/

/-- `spi_init`; `rx0` is the content of `RX_DATA0` at the identity read. -/
def spi_init (rx0 : Nat) : List Event :=
  let r := spi_read_reg ADXL_DEVID rx0
  let devid := r.2
  r.1 ++ [print (Msg.device_id devid)]
    ++ (if devid ≠ 0xE5 then [print Msg.wrong_device_id] else [])
    ++ spi_write_reg ADXL_DATA_FORMAT 0x0B ++ [usleep 10000]
    ++ spi_write_reg ADXL_POWER_CTL 0x08 ++ [usleep 10000]
    ++ [print Msg.configured]

/-- `read_accel`; `rx0` and `rx1` are the contents of `RX_DATA0` and
`RX_DATA1` when they are read; the result is `(*x, *y, *z)`. -/
def read_accel (rx0 rx1 : Nat) : List Event × (Int × Int × Int) :=
  let txbuf0 := 0xC0 ||| ADXL_DATA_X0
  let rxlo := rx0
  let rxhi := rx1
  ([wr (SPI_BASE + SPI_TX_DATA0) txbuf0, wr (SPI_BASE + SPI_TX_DATA1) 0x00000000,
      wr (SPI_BASE + SPI_TX_CNT_REG) 7]
      ++ spi_wait_done
      ++ [rd (SPI_BASE + SPI_RX_DATA0) rxlo, rd (SPI_BASE + SPI_RX_DATA1) rxhi],
    (to_short ((((rxlo >>> 8) &&& 0xFF) ||| (((rxlo >>> 16) &&& 0xFF) <<< 8) : Nat) : Int),
     to_short ((((rxlo >>> 24) &&& 0xFF) ||| (((rxhi >>> 0) &&& 0xFF) <<< 8) : Nat) : Int),
     to_short ((((rxhi >>> 8) &&& 0xFF) ||| (((rxhi >>> 16) &&& 0xFF) <<< 8) : Nat) : Int)))

/-- Byte `k` (0 = least significant) of a word. -/
def byte_of (k w : Nat) : Nat := w / 256 ^ k % 256

/-- The signed 16-bit value with low byte `lo` and high byte `hi`
(little-endian two's complement), as the data sheet defines it. -/
def le_s16 (lo hi : Nat) : Int :=
  if hi < 128 then (lo + 256 * hi : Int) else (lo + 256 * hi : Int) - 65536

/-! ## Angle engine client -/

/-- The polling loop `while((RD_REG(CORDIC_BASE, CORDIC_STATUS_REG) & 0x01) == 0);`
of `cordic_calc`. `status i` is the value that the `i`-th read of the status
register returns, `i` counts the reads already made, and `fuel` bounds the
number of reads still allowed: `none` means the loop is still spinning when
the bound is reached. The result is the list of reads made. -/
def cordic_poll (status : Nat → Nat) : Nat → Nat → Option (List Event)
  | 0, _ => none
  | fuel + 1, i =>
    if (status i &&& 0x01) = 0 then
      (cordic_poll status fuel (i + 1)).map
        (fun polls => rd (CORDIC_BASE + CORDIC_STATUS_REG) (status i) :: polls)
    else
      some [rd (CORDIC_BASE + CORDIC_STATUS_REG) (status i)]

/-- The value `(int)(RD_REG(CORDIC_BASE, CORDIC_ANGLE_REG) & 0xFFFF)` that
`cordic_calc` returns when the angle register holds `angle`. -/
def cordic_ret (angle : Nat) : Int := ((angle &&& 0xFFFF : Nat) : Int)

/-- `cordic_calc(yval, zval)`: `status` is the sequence of values of the
status register, `angle` the content of the angle register, `fuel` the bound
on the number of polls. -/
def cordic_calc (fuel : Nat) (yval zval : Int) (status : Nat → Nat) (angle : Nat) :
    Option (List Event × Int) :=
  match cordic_poll status fuel 0 with
  | none => none
  | some polls =>
    some ([wr (CORDIC_BASE + CORDIC_Y_REG) (to_u32 yval &&& 0xFFFF),
           wr (CORDIC_BASE + CORDIC_Z_REG) (to_u32 zval &&& 0xFFFF),
           wr (CORDIC_BASE + CORDIC_CTRL_REG) 0x00,
           wr (CORDIC_BASE + CORDIC_CTRL_REG) 0x01]
          ++ polls ++ [rd (CORDIC_BASE + CORDIC_ANGLE_REG) angle],
        cordic_ret angle)

/-! ## Single-precision arithmetic

`q312_to_rad` computes in `float`. A finite `float` is a rational
`m * 2 ^ e` with `|m| < 2 ^ 24` and `-149 ≤ e`; an operation returns the
exact result rounded to the nearest such value, ties to the even
significand. Overflow to infinity (magnitude `2 ^ 128` and above) is not
modelled: the operands of this program are 16-bit integers. -/

/-- Nearest integer, ties to even. -/
def round_half_even (x : ℚ) : ℤ :=
  let n := ⌊x⌋
  let f := x - n
  if f < 1 / 2 then n
  else if 1 / 2 < f then n + 1
  else if n % 2 = 0 then n else n + 1

/-- Exponent of the unit in the last place of the `float` nearest to `q ≠ 0`. -/
def f32_exp (q : ℚ) : ℤ := max (Int.log 2 |q| - 23) (-149)

/-- Rounding of a rational to `float`. -/
def f32_round (q : ℚ) : ℚ :=
  if q = 0 then 0 else (round_half_even (q / 2 ^ f32_exp q) : ℚ) * 2 ^ f32_exp q

/-- `q312_to_rad(qval)`, that is `(float)qval / 4096.0f`: the conversion of
`qval` to `float`, the `float` constant, and the `float` division. -/
def q312_to_rad (qval : Int) : ℚ :=
  f32_round (f32_round (qval : ℚ) / f32_round 4096)

/-- Encoding of a value in Q3.12 as the specification words it: the nearest
integer to `r * 4096`. The program has no encoder; this one is the
specification's. -/
def q312_encode {α : Type} [LinearOrderedField α] [FloorRing α] (r : α) : ℤ :=
  round (r * 4096)

/-! ## Shared reading slot, timer interrupt and main loop -/

/-- The globals shared by the interrupt handler and the main loop. -/
structure Slot where
  glob_y : Int
  glob_z : Int
  data_rdy : Int
  deriving DecidableEq

/-- `tmr_isr`, as far as the globals go: `rx0`, `rx1` are what the burst read
of `read_accel` finds in `RX_DATA0`, `RX_DATA1`. The acknowledge of the timer
at the end of the handler touches the timer's registers only. -/
def tmr_isr (_s : Slot) (rx0 rx1 : Nat) : Slot :=
  let r := (read_accel rx0 rx1).2
  let tmp_y := r.2.1
  let tmp_z := r.2.2
  { glob_y := tmp_y, glob_z := tmp_z, data_rdy := 1 }

/-- Position of the main loop inside one iteration of `while(1)`. -/
inductive Pc where
  /-- at `if(data_rdy)` -/
  | test
  /-- at `loc_y = glob_y;` -/
  | copy_y
  /-- at `loc_z = glob_z;` -/
  | copy_z
  /-- at `data_rdy = 0;` -/
  | clear
  /-- at `hw_ang = cordic_calc(loc_y, loc_z);`, up to `smpl_cnt++` -/
  | compute
  deriving DecidableEq

/-- State of the program once the main loop runs: the globals, the locals of
`main`, the position in the loop, and what the loop has done so far (the
arguments of its calls of `cordic_calc`, the console output). -/
structure Main where
  slot : Slot
  smpl_cnt : Int
  loc_y : Int
  loc_z : Int
  hw_ang : Int
  hw_rad : ℚ
  pc : Pc
  calls : List (Int × Int)
  out : List Event

/-- `if(data_rdy)`. -/
def stmt_test (m : Main) : Main :=
  if m.slot.data_rdy ≠ 0 then { m with pc := Pc.copy_y } else { m with pc := Pc.test }

/-- `loc_y = glob_y;` -/
def stmt_copy_y (m : Main) : Main :=
  { m with loc_y := m.slot.glob_y, pc := Pc.copy_z }

/-- `loc_z = glob_z;` -/
def stmt_copy_z (m : Main) : Main :=
  { m with loc_z := m.slot.glob_z, pc := Pc.clear }

/-- `data_rdy = 0;` -/
def stmt_clear (m : Main) : Main :=
  { m with slot := { m.slot with data_rdy := 0 }, pc := Pc.compute }

/-- The rest of the body of `if(data_rdy)`: the call of `cordic_calc` (the
engine answers with `angle` in its angle register), the conversion to
radians, the report when `smpl_cnt % 10 == 0`, and `smpl_cnt++`. The
reference angle `sw_rad` and the error, which only feed the last two lines
of the report, are left out. -/
def stmt_calc (m : Main) (angle : Nat) : Main :=
  let hw_ang := cordic_ret angle
  let hw_rad := q312_to_rad (to_short hw_ang)
  { m with
    hw_ang := hw_ang
    hw_rad := hw_rad
    calls := m.calls ++ [(m.loc_y, m.loc_z)]
    out := m.out ++
      (if Int.tmod m.smpl_cnt 10 = 0 then
        [print (Msg.sample m.smpl_cnt m.loc_y m.loc_z hw_ang hw_rad)] else [])
    smpl_cnt := to_int (m.smpl_cnt + 1)
    pc := Pc.test }

/-- One iteration of `while(1)` in `main`, run without interruption. -/
def loop_iter (m : Main) (angle : Nat) : Main :=
  if m.slot.data_rdy ≠ 0 then
    stmt_calc (stmt_clear (stmt_copy_z (stmt_copy_y m))) angle
  else m

/-- What happens next: the timer interrupt fires and `tmr_isr` runs to its
end, or the main loop executes the statement it is at. -/
inductive Action where
  | tick (rx0 rx1 : Nat)
  | main (angle : Nat)
  deriving DecidableEq

/-- One step of the interleaved execution. -/
def step (m : Main) : Action → Main
  | Action.tick rx0 rx1 => { m with slot := tmr_isr m.slot rx0 rx1 }
  | Action.main angle =>
    match m.pc with
    | Pc.test => stmt_test m
    | Pc.copy_y => stmt_copy_y m
    | Pc.copy_z => stmt_copy_z m
    | Pc.clear => stmt_clear m
    | Pc.compute => stmt_calc m angle

/-- Execution of a sequence of steps. -/
def run (m : Main) (acts : List Action) : Main := acts.foldl step m

/-- The program state when `main` enters `while(1)`: the statics are zero,
`ly`, `lz`, `ha`, `hr` are whatever the uninitialised locals hold. -/
def init (ly lz ha : Int) (hr : ℚ) : Main :=
  { slot := { glob_y := 0, glob_z := 0, data_rdy := 0 }
    smpl_cnt := 0, loc_y := ly, loc_z := lz, hw_ang := ha, hw_rad := hr
    pc := Pc.test, calls := [], out := [] }

/-- The actions of a burst of ticks with the given responses. -/
def ticks_of (rs : List (Nat × Nat)) : List Action :=
  rs.map (fun t => Action.tick t.1 t.2)

/-- The `(Y, Z)` pair of the reading that `read_accel` decodes from the
responses `rx0`, `rx1`: what the tick with these responses writes. -/
def tick_pair (rx0 rx1 : Nat) : Int × Int :=
  ((read_accel rx0 rx1).2.2.1, (read_accel rx0 rx1).2.2.2)

/-- The pairs written by the ticks of an execution, in order. -/
def written : List Action → List (Int × Int)
  | [] => []
  | Action.tick rx0 rx1 :: acts => tick_pair rx0 rx1 :: written acts
  | Action.main _ :: acts => written acts

/-- Whether some tick of the execution from `m` fires while the main loop is
between `loc_y = glob_y;` and `loc_z = glob_z;`. -/
def tick_between_copies (m : Main) : List Action → Bool
  | [] => false
  | Action.tick rx0 rx1 :: acts =>
    decide (m.pc = Pc.copy_z) || tick_between_copies (step m (Action.tick rx0 rx1)) acts
  | Action.main angle :: acts => tick_between_copies (step m (Action.main angle)) acts

/-! ## Reading a trace -/

/-- Number of bus transactions in a trace: the writes of the transfer-count
register, each of which starts one. -/
def bus_transactions (tr : List Event) : Nat :=
  tr.countP (fun e => match e with
    | wr addr _ => addr = SPI_BASE + SPI_TX_CNT_REG
    | _ => false)

/-- The register writes of a trace, in order. -/
def reg_writes (tr : List Event) : List (Nat × Nat) :=
  tr.filterMap (fun e => match e with
    | wr addr val => some (addr, val)
    | _ => none)

/-- The reads of the status register made by `n` polls starting at poll `i`. -/
def status_reads (status : Nat → Nat) (i n : Nat) : List Event :=
  (List.range n).map (fun j => rd (CORDIC_BASE + CORDIC_STATUS_REG) (status (i + j)))

/-- Number of identity warnings in a trace. -/
def warnings (tr : List Event) : Nat :=
  tr.count (print Msg.wrong_device_id)

/-- The sample numbers of the detailed reports in a trace, in order. -/
def report_indices (tr : List Event) : List Int :=
  tr.filterMap (fun e => match e with
    | print (Msg.sample c _ _ _ _) => some c
    | _ => none)

/-! ## Invariants of the interleaved execution -/

/-- The sample numbers below `n` at which a detailed report is due. -/
def due_reports (n : Nat) : List Int :=
  ((List.range n).filter (fun k => k % 10 = 0)).map Int.ofNat

/-- The counter invariant of the main loop: as long as fewer than `2 ^ 31`
readings have been processed, `smpl_cnt` is their number and the reports
emitted are those due. -/
def counter_inv (m : Main) : Prop :=
  m.calls.length < 2 ^ 31 →
    m.smpl_cnt = (m.calls.length : Int) ∧ report_indices m.out = due_reports m.calls.length

/-- Twenty-five readings, each delivered by a tick and processed by the five
statements of one loop iteration. -/
def twenty_five_readings : List Action :=
  (List.replicate 25
    [Action.tick 0x01000000 0x100, Action.main 0, Action.main 0, Action.main 0, Action.main 0,
      Action.main 0x1000]).flatten

/-- The bookkeeping of one step for `flagged_calls`: the flag of the
iteration in progress after the step (raised by a tick that fires while the
loop is between `loc_y = glob_y;` and `loc_z = glob_z;`, lowered when the
iteration ends), and the call of `cordic_calc` that the step makes, if it
makes one, with the flag of its iteration. -/
def flag_step (m : Main) (dirty : Bool) : Action → Bool × List ((Int × Int) × Bool)
  | Action.tick _ _ => (dirty || decide (m.pc = Pc.copy_z), [])
  | Action.main _ =>
    if m.pc = Pc.compute then (false, [((m.loc_y, m.loc_z), dirty)]) else (dirty, [])

/-- The calls of `cordic_calc` that the execution from `m` makes, in order,
each with the `(loc_y, loc_z)` pair it passes and with the flag of its
iteration: whether a tick fired while the loop was between
`loc_y = glob_y;` and `loc_z = glob_z;` of that iteration. `dirty` is the
flag of the iteration in progress in `m`. -/
def flagged_calls (m : Main) (dirty : Bool) : List Action → List ((Int × Int) × Bool)
  | [] => []
  | a :: acts => (flag_step m dirty a).2 ++ flagged_calls (step m a) (flag_step m dirty a).1 acts

/-- The handoff invariant, `W` being the pairs written by the ticks so far
and `dirty` the flag of the iteration in progress: the content of the slot
is a written pair while `data_rdy` is set; the flag is set while the loop is
about to copy; and, in an iteration that no tick has interrupted between the
copies, `loc_y` is still the slot's Y between the two copies and
`(loc_y, loc_z)` is a written pair after them. -/
def iter_inv (W : List (Int × Int)) (dirty : Bool) (m : Main) : Prop :=
  (m.slot.data_rdy ≠ 0 → (m.slot.glob_y, m.slot.glob_z) ∈ W)
    ∧ (m.pc = Pc.copy_y ∨ m.pc = Pc.copy_z → m.slot.data_rdy ≠ 0)
    ∧ (m.pc = Pc.copy_z → dirty = false → m.loc_y = m.slot.glob_y)
    ∧ (m.pc = Pc.clear ∨ m.pc = Pc.compute → dirty = false → (m.loc_y, m.loc_z) ∈ W)

/-- The field-wise handoff invariant, which holds under every interleaving:
every pair passed to `cordic_calc`, the content of the slot while `data_rdy`
is set, and the locals once copied, have a Y that some tick wrote and a Z
that some tick wrote. -/
def field_inv (W : List (Int × Int)) (m : Main) : Prop :=
  (∀ p ∈ m.calls, p.1 ∈ W.map Prod.fst ∧ p.2 ∈ W.map Prod.snd)
    ∧ (m.slot.data_rdy ≠ 0 →
        m.slot.glob_y ∈ W.map Prod.fst ∧ m.slot.glob_z ∈ W.map Prod.snd)
    ∧ (m.pc = Pc.copy_y ∨ m.pc = Pc.copy_z → m.slot.data_rdy ≠ 0)
    ∧ (m.pc = Pc.copy_z ∨ m.pc = Pc.clear ∨ m.pc = Pc.compute → m.loc_y ∈ W.map Prod.fst)
    ∧ (m.pc = Pc.clear ∨ m.pc = Pc.compute → m.loc_z ∈ W.map Prod.snd)

/-- An execution in which a tick falls between the two copies: the tick
writing (1, 1), the loop reaching `loc_z = glob_z;`, the tick writing (2, 2),
the rest of the iteration. -/
def torn_run : List Action :=
  [Action.tick 0x01000000 0x100, Action.main 0, Action.main 0,
   Action.tick 0x02000000 0x200, Action.main 0, Action.main 0, Action.main 0]

/-- An execution without a tick between the copies: two ticks, then one
whole iteration of the loop. -/
def clean_run : List Action :=
  [Action.tick 0x01000000 0x100, Action.tick 0x02000000 0x200, Action.main 0, Action.main 0,
   Action.main 0, Action.main 0, Action.main 0]

/-- An execution with one interrupted iteration followed by two clean ones:
`torn_run`, then twice a tick (writing (3, 3), then (4, 4)) and a whole
iteration of the loop. -/
def mixed_run : List Action :=
  torn_run ++
    [Action.tick 0x03000000 0x300, Action.main 0, Action.main 0, Action.main 0, Action.main 0,
     Action.main 0,
     Action.tick 0x04000000 0x400, Action.main 0, Action.main 0, Action.main 0, Action.main 0,
     Action.main 0]

/-! ## Bit-level facts -/

theorem and_ff (n : Nat) : n &&& 0xFF = n % 256 :=
  Nat.and_pow_two_sub_one_eq_mod n 8

theorem and_ffff (n : Nat) : n &&& 0xFFFF = n % 65536 :=
  Nat.and_pow_two_sub_one_eq_mod n 16

theorem or_shl8 (lo hi : Nat) (h : lo < 256) : lo ||| (hi <<< 8) = lo + 256 * hi := by
  have h1 : 2 ^ 8 * hi + lo = 2 ^ 8 * hi ||| lo :=
    Nat.mul_add_lt_is_or (i := 8) (by simpa using h) hi
  rw [Nat.shiftLeft_eq, Nat.lor_comm, Nat.mul_comm hi, ← h1]
  norm_num
  omega

theorem to_short_le (lo hi : Nat) (hlo : lo < 256) (hhi : hi < 256) :
    to_short ((lo + 256 * hi : Nat) : Int) = le_s16 lo hi := by
  unfold to_short le_s16
  split <;> push_cast <;> omega

theorem decode_axis (a b : Nat) :
    to_short (((a &&& 0xFF) ||| ((b &&& 0xFF) <<< 8) : Nat) : Int)
      = le_s16 (a % 256) (b % 256) := by
  rw [and_ff, and_ff, or_shl8 _ _ (Nat.mod_lt _ (by norm_num))]
  exact to_short_le _ _ (Nat.mod_lt _ (by norm_num)) (Nat.mod_lt _ (by norm_num))

theorem byte_of_lt (k w : Nat) : byte_of k w < 256 :=
  Nat.mod_lt _ (by norm_num)

theorem le_s16_eq_to_short (lo hi : Nat) (hlo : lo < 256) (hhi : hi < 256) :
    le_s16 lo hi = to_short ((lo ||| (hi <<< 8) : Nat) : Int) := by
  rw [or_shl8 _ _ hlo, to_short_le _ _ hlo hhi]

theorem read_accel_val (rxlo rxhi : Nat) :
    (read_accel rxlo rxhi).2 =
      (le_s16 (byte_of 1 rxlo) (byte_of 2 rxlo),
       le_s16 (byte_of 3 rxlo) (byte_of 0 rxhi),
       le_s16 (byte_of 1 rxhi) (byte_of 2 rxhi)) := by
  simp only [read_accel, decode_axis, byte_of, Nat.shiftRight_eq_div_pow]
  norm_num

theorem or_80_eq (a : Nat) (ha : a < 256) : (0x80 ||| a) % 4294967296 = a ||| 0x80 := by
  have h : (0x80 ||| a) < 2 ^ 8 := Nat.or_lt_two_pow (by norm_num) (by simpa using ha)
  rw [Nat.mod_eq_of_lt (by omega), Nat.lor_comm]

theorem or_80_bit7 (a : Nat) : (a ||| 0x80).testBit 7 = true := by
  rw [Nat.testBit_or]
  have : Nat.testBit 0x80 7 = true := by decide
  simp [this]

theorem high_bits_zero (x : Nat) (hx : x < 2 ^ 8) (i : Nat) (hi : 8 ≤ i) :
    x.testBit i = false :=
  Nat.testBit_lt_two_pow (lt_of_lt_of_le hx (Nat.pow_le_pow_right (by norm_num) hi))

/-! ## Serial peripheral driver: theorems -/

/-- C9: for every 8-bit address `a` and response word `w`, `spi_read_reg(a)`
writes `a | 0x80` to `TX_DATA0` (bit 7 set, bits 8 and above zero), then 2
to the transfer-count register, waits the settle delay, reads `RX_DATA0` and
returns exactly byte 1 (bits 8-15) of `w`; this is one bus transaction, and
the result depends on no other bit of `w`. -/
theorem spi_read_reg_transaction (a w : Nat) (ha : a < 256) :
    (spi_read_reg a w).1 =
        [wr (SPI_BASE + SPI_TX_DATA0) (a ||| 0x80), wr (SPI_BASE + SPI_TX_CNT_REG) 2,
         usleep 5000, rd (SPI_BASE + SPI_RX_DATA0) w]
      ∧ bus_transactions (spi_read_reg a w).1 = 1
      ∧ (a ||| 0x80).testBit 7 = true
      ∧ (∀ i, 8 ≤ i → (a ||| 0x80).testBit i = false)
      ∧ (spi_read_reg a w).2 = w / 256 % 256
      ∧ (spi_read_reg a w).2 = byte_of 1 w
      ∧ (∀ w', byte_of 1 w' = byte_of 1 w → (spi_read_reg a w').2 = (spi_read_reg a w).2) := by
  have hval : ∀ v, (spi_read_reg a v).2 = byte_of 1 v := by
    intro v
    simp only [spi_read_reg, to_u8, and_ff, byte_of, Nat.shiftRight_eq_div_pow]
    norm_num
  have htr : (spi_read_reg a w).1 =
        [wr (SPI_BASE + SPI_TX_DATA0) (a ||| 0x80), wr (SPI_BASE + SPI_TX_CNT_REG) 2,
         usleep 5000, rd (SPI_BASE + SPI_RX_DATA0) w] := by
    simp only [spi_read_reg, spi_wait_done, or_80_eq a ha]
    rfl
  refine ⟨htr, ?_, or_80_bit7 a, ?_, ?_, hval w, ?_⟩
  · rw [htr]
    simp [bus_transactions, SPI_BASE, SPI_TX_DATA0, SPI_TX_CNT_REG, SPI_RX_DATA0]
  · intro i hi
    exact high_bits_zero _ (Nat.or_lt_two_pow (by simpa using ha) (by norm_num)) i hi
  · rw [hval w]
    simp [byte_of]
  · intro w' h
    rw [hval, hval, h]

/-- Witness of C9: the identity read of a device answering `0xE5`. -/
theorem spi_read_reg_transaction_witness :
    (spi_read_reg 0x00 0xE500).1 =
        [wr 0x43C10008 0x80, wr 0x43C10004 2, usleep 5000, rd 0x43C10018 0xE500]
      ∧ (spi_read_reg 0x00 0xE500).2 = 0xE5
      ∧ (spi_read_reg 0x00 0x12E534).2 = (spi_read_reg 0x00 0xE500).2 := by
  have h := spi_read_reg_transaction 0x00 0xE500 (by decide)
  refine ⟨?_, ?_, h.2.2.2.2.2.2 0x12E534 (by decide)⟩
  · rw [h.1]; decide
  · rw [h.2.2.2.2.1]

/-- Counterexample to C10 as stated: `spi_write_reg(0x80, 0)` transmits the
address byte `0x80`, whose bit 7 is 1, so bit 7 is not 0 for every write
call on an 8-bit address. -/
theorem spi_write_reg_bit7_counterexample :
    ¬ (∀ a d : Nat, a < 256 → d < 256 →
        ∀ w, wr (SPI_BASE + SPI_TX_DATA0) w ∈ spi_write_reg a d → w.testBit 7 = false) := by
  intro h
  have h1 := h 0x80 0 (by decide) (by decide) 0x80 (by decide)
  revert h1
  decide

/-- C10 (amended): for every 8-bit address `a` and value `d`,
`spi_write_reg(a, d)` writes the word with `a` in bits 0-7, `d` in bits 8-15
and zero above to `TX_DATA0`, then 2 to the transfer-count register, then
waits the settle delay: one bus transaction. Bit 7 of the transmitted
address byte is bit 7 of `a`: it is 0 (write) whenever `a < 0x80`, as for
the two registers the program writes (`0x31`, `0x2D`), whereas the word of
every `spi_read_reg` call has bit 7 set. -/
theorem spi_write_reg_transaction (a d : Nat) (ha : a < 256) (hd : d < 256) :
    spi_write_reg a d =
        [wr (SPI_BASE + SPI_TX_DATA0) (a + 256 * d), wr (SPI_BASE + SPI_TX_CNT_REG) 2,
         usleep 5000]
      ∧ bus_transactions (spi_write_reg a d) = 1
      ∧ byte_of 0 (a + 256 * d) = a
      ∧ byte_of 1 (a + 256 * d) = d
      ∧ (a + 256 * d) / 65536 = 0
      ∧ (a + 256 * d).testBit 7 = a.testBit 7
      ∧ (a < 0x80 → (a + 256 * d).testBit 7 = false)
      ∧ ADXL_DATA_FORMAT < 0x80 ∧ ADXL_POWER_CTL < 0x80
      ∧ (∀ a' w', a' < 256 → ∀ v, wr (SPI_BASE + SPI_TX_DATA0) v ∈ (spi_read_reg a' w').1 →
          v.testBit 7 = true) := by
  have hword : ((a <<< 0) ||| (d <<< 8)) % 4294967296 = a + 256 * d := by
    rw [Nat.shiftLeft_eq, pow_zero, mul_one, or_shl8 _ _ ha]
    omega
  have htr : spi_write_reg a d =
        [wr (SPI_BASE + SPI_TX_DATA0) (a + 256 * d), wr (SPI_BASE + SPI_TX_CNT_REG) 2,
         usleep 5000] := by
    simp only [spi_write_reg, spi_wait_done, hword]
    rfl
  have hbit : (a + 256 * d).testBit 7 = a.testBit 7 := by
    have h1 : (a + 256 * d) % 2 ^ 8 = a := by norm_num; omega
    have h2 := Nat.testBit_mod_two_pow (a + 256 * d) 8 7
    rw [h1] at h2
    simp at h2
    exact h2.symm
  refine ⟨htr, ?_, ?_, ?_, ?_, hbit, ?_, by decide, by decide, ?_⟩
  · rw [htr]
    simp [bus_transactions, SPI_BASE, SPI_TX_DATA0, SPI_TX_CNT_REG]
  · simp only [byte_of]; omega
  · simp only [byte_of]; omega
  · omega
  · intro h
    rw [hbit]
    exact Nat.testBit_lt_two_pow (by simpa using h)
  · intro a' w' ha' v hv
    simp only [spi_read_reg, spi_wait_done, or_80_eq a' ha'] at hv
    simp [SPI_BASE, SPI_TX_DATA0, SPI_TX_CNT_REG] at hv
    rw [hv]
    exact or_80_bit7 a'

/-- Witness of C10 (amended): the write of `DATA_FORMAT`. -/
theorem spi_write_reg_transaction_witness :
    spi_write_reg 0x31 0x0B = [wr 0x43C10008 0x0B31, wr 0x43C10004 2, usleep 5000]
      ∧ Nat.testBit 0x0B31 7 = false := by
  have h := spi_write_reg_transaction 0x31 0x0B (by decide) (by decide)
  exact ⟨by rw [h.1]; decide, h.2.2.2.2.2.2.1 (by decide)⟩

/-! ## Accelerometer client: theorems -/

/-- C5: whatever word the identity read finds in `RX_DATA0`, with `d` its
byte 1 (bits 8-15), `spi_init` emits no warning when `d = 0xE5` and exactly
one warning otherwise; in both cases it goes on to the same register writes
in the same order (after the two writes of the identity read: `DATA_FORMAT`
0x31 := 0x0B, then `POWER_CTL` 0x2D := 0x08, each followed by its settle
delays) and ends with the "configured" line. -/
theorem spi_init_identity_check (rx0 : Nat) :
    warnings (spi_init rx0) = (if byte_of 1 rx0 = 0xE5 then 0 else 1)
      ∧ reg_writes (spi_init rx0) =
          reg_writes (spi_read_reg ADXL_DEVID rx0).1
            ++ reg_writes (spi_write_reg 0x31 0x0B) ++ reg_writes (spi_write_reg 0x2D 0x08)
      ∧ reg_writes (spi_init rx0) =
          [(SPI_BASE + SPI_TX_DATA0, 0x80), (SPI_BASE + SPI_TX_CNT_REG, 2),
           (SPI_BASE + SPI_TX_DATA0, 0x31 + 256 * 0x0B), (SPI_BASE + SPI_TX_CNT_REG, 2),
           (SPI_BASE + SPI_TX_DATA0, 0x2D + 256 * 0x08), (SPI_BASE + SPI_TX_CNT_REG, 2)]
      ∧ (∃ pre, spi_init rx0 = pre ++ spi_write_reg 0x31 0x0B ++ [usleep 10000]
          ++ spi_write_reg 0x2D 0x08 ++ [usleep 10000] ++ [print Msg.configured]
          ∧ reg_writes pre = reg_writes (spi_read_reg ADXL_DEVID rx0).1)
      ∧ bus_transactions (spi_init rx0) = 3 := by
  have hd : (spi_read_reg ADXL_DEVID rx0).2 = byte_of 1 rx0 := by
    simp only [spi_read_reg, to_u8, and_ff, byte_of, Nat.shiftRight_eq_div_pow]
    norm_num
  by_cases h : byte_of 1 rx0 = 0xE5
  · simp only [spi_init, hd, h]
    refine ⟨?_, ?_, ?_, ⟨_, rfl, ?_⟩, ?_⟩ <;>
      simp [h, warnings, reg_writes, bus_transactions, spi_read_reg, spi_write_reg, spi_wait_done,
        List.filterMap_cons, List.count_cons, ADXL_DEVID, ADXL_DATA_FORMAT, ADXL_POWER_CTL,
        SPI_BASE, SPI_TX_DATA0, SPI_TX_CNT_REG, SPI_RX_DATA0]
  · simp only [spi_init, hd, h]
    refine ⟨?_, ?_, ?_, ⟨_, rfl, ?_⟩, ?_⟩ <;>
      simp [h, warnings, reg_writes, bus_transactions, spi_read_reg, spi_write_reg, spi_wait_done,
        List.filterMap_cons, List.count_cons, ADXL_DEVID, ADXL_DATA_FORMAT, ADXL_POWER_CTL,
        SPI_BASE, SPI_TX_DATA0, SPI_TX_CNT_REG, SPI_RX_DATA0]

/-- C1: for every pair of response words, `read_accel` returns each axis as
`low_byte | (high_byte << 8)` read as a two's-complement 16-bit value, that
is the little-endian signed value of the byte pair: X from bytes 1, 2 of
`rxlo`, Y from byte 3 of `rxlo` (low) and byte 0 of `rxhi` (high), Z from
bytes 1, 2 of `rxhi`; byte 0 of `rxlo` and byte 3 of `rxhi` have no effect. -/
theorem read_accel_decode (rxlo rxhi : Nat) :
    (read_accel rxlo rxhi).2 =
        (to_short ((byte_of 1 rxlo ||| (byte_of 2 rxlo <<< 8) : Nat) : Int),
         to_short ((byte_of 3 rxlo ||| (byte_of 0 rxhi <<< 8) : Nat) : Int),
         to_short ((byte_of 1 rxhi ||| (byte_of 2 rxhi <<< 8) : Nat) : Int))
      ∧ (read_accel rxlo rxhi).2 =
        (le_s16 (byte_of 1 rxlo) (byte_of 2 rxlo),
         le_s16 (byte_of 3 rxlo) (byte_of 0 rxhi),
         le_s16 (byte_of 1 rxhi) (byte_of 2 rxhi))
      ∧ (∀ rxlo' rxhi' : Nat,
          byte_of 1 rxlo' = byte_of 1 rxlo → byte_of 2 rxlo' = byte_of 2 rxlo →
          byte_of 3 rxlo' = byte_of 3 rxlo → byte_of 0 rxhi' = byte_of 0 rxhi →
          byte_of 1 rxhi' = byte_of 1 rxhi → byte_of 2 rxhi' = byte_of 2 rxhi →
          (read_accel rxlo' rxhi').2 = (read_accel rxlo rxhi).2) := by
  refine ⟨?_, read_accel_val rxlo rxhi, ?_⟩
  · rw [read_accel_val]
    simp only [le_s16_eq_to_short _ _ (byte_of_lt _ _) (byte_of_lt _ _)]
  · intro rxlo' rxhi' h1 h2 h3 h4 h5 h6
    rw [read_accel_val, read_accel_val, h1, h2, h3, h4, h5, h6]

/-- Witness of C1: the burst response `junk, 00 FF, 11 80, FF FF, junk`
decodes to (-256, -32751, -1), whatever the two junk bytes are. -/
theorem read_accel_decode_witness :
    (read_accel 0x11FF00AA 0x55FFFF80).2 = (-256, -32751, -1)
      ∧ (read_accel 0x11FF0000 0x00FFFF80).2 = (read_accel 0x11FF00AA 0x55FFFF80).2 := by
  have h := read_accel_decode 0x11FF00AA 0x55FFFF80
  refine ⟨?_, ?_⟩
  · rw [h.2.1]; decide
  · exact h.2.2 0x11FF0000 0x00FFFF80 (by decide) (by decide) (by decide) (by decide)
      (by decide) (by decide)

/-! ## Angle engine client: theorems -/

theorem mask16_to_u32 (v : Int) : to_u32 v &&& 0xFFFF = (v % 65536).toNat := by
  rw [and_ffff]
  unfold to_u32
  omega

theorem cordic_ret_eq (angle : Nat) : cordic_ret angle = ((angle % 65536 : Nat) : Int) := by
  unfold cordic_ret
  rw [and_ffff]

theorem and_one_eq_zero_iff (s : Nat) : (s &&& 0x01) = 0 ↔ s.testBit 0 = false := by
  have h : s &&& 0x01 = s % 2 := Nat.and_pow_two_sub_one_eq_mod s 1
  rw [h, Nat.testBit_zero]
  simp

theorem status_reads_succ (status : Nat → Nat) (i n : Nat) :
    status_reads status i (n + 1)
      = rd (CORDIC_BASE + CORDIC_STATUS_REG) (status i) :: status_reads status (i + 1) n := by
  simp only [status_reads, List.range_succ_eq_map, List.map_cons, List.map_map, Nat.add_zero]
  congr 1
  apply List.map_congr_left
  intro j _
  simp only [Function.comp, Nat.succ_eq_add_one]
  congr 2
  omega

theorem cordic_poll_done (status : Nat → Nat) (k : Nat) : ∀ (fuel i : Nat),
    (∀ j, j < k → (status (i + j)).testBit 0 = false) →
    (status (i + k)).testBit 0 = true → k < fuel →
    cordic_poll status fuel i = some (status_reads status i (k + 1)) := by
  induction k with
  | zero =>
    intro fuel i _ hk hf
    obtain ⟨f, rfl⟩ : ∃ f, fuel = f + 1 := ⟨fuel - 1, by omega⟩
    have : ¬ (status i &&& 0x01) = 0 := by
      rw [and_one_eq_zero_iff]; simpa using hk
    rw [cordic_poll, if_neg this]
    rfl
  | succ k ih =>
    intro fuel i hlt hk hf
    obtain ⟨f, rfl⟩ : ∃ f, fuel = f + 1 := ⟨fuel - 1, by omega⟩
    have h0 : (status i &&& 0x01) = 0 := by
      rw [and_one_eq_zero_iff]; simpa using hlt 0 (by omega)
    have ih' := ih f (i + 1)
      (fun j hj => by have := hlt (j + 1) (by omega); rwa [show i + 1 + j = i + (j + 1) by omega])
      (by rwa [show i + 1 + k = i + (k + 1) by omega]) (by omega)
    rw [cordic_poll, if_pos h0, ih', status_reads_succ status i (k + 1)]
    rfl

theorem cordic_poll_spin (status : Nat → Nat) : ∀ (fuel i : Nat),
    (∀ j, j < fuel → (status (i + j)).testBit 0 = false) →
    cordic_poll status fuel i = none := by
  intro fuel
  induction fuel with
  | zero => intro i _; rfl
  | succ f ih =>
    intro i h
    have h0 : (status i &&& 0x01) = 0 := by
      rw [and_one_eq_zero_iff]; simpa using h 0 (by omega)
    rw [cordic_poll, if_pos h0, ih (i + 1)
      (fun j hj => by have := h (j + 1) (by omega); rwa [show i + 1 + j = i + (j + 1) by omega])]
    rfl

/-- C6: for all `yval`, `zval` and every sequence of status values whose
first value with bit 0 set is at index `k`, `cordic_calc` returns as soon as
it is allowed more than `k` polls, having written Y := yval mod 2^16,
Z := zval mod 2^16, CTRL := 0, CTRL := 1 in this order, then read the status
register exactly `k + 1` times, then read the angle register, and it returns
that register masked with 0xFFFF; with `k` polls or fewer it is still
polling. If no status value ever has bit 0 set, no bound on the number of
polls makes it return. -/
theorem cordic_calc_protocol (yval zval : Int) (status : Nat → Nat) (angle : Nat) :
    (∀ k, (status k).testBit 0 = true → (∀ j, j < k → (status j).testBit 0 = false) →
      (∀ fuel, k < fuel →
        cordic_calc fuel yval zval status angle =
          some ([wr (CORDIC_BASE + CORDIC_Y_REG) (yval % 65536).toNat,
                 wr (CORDIC_BASE + CORDIC_Z_REG) (zval % 65536).toNat,
                 wr (CORDIC_BASE + CORDIC_CTRL_REG) 0,
                 wr (CORDIC_BASE + CORDIC_CTRL_REG) 1]
                ++ (List.range (k + 1)).map
                    (fun j => rd (CORDIC_BASE + CORDIC_STATUS_REG) (status j))
                ++ [rd (CORDIC_BASE + CORDIC_ANGLE_REG) angle],
              ((angle % 65536 : Nat) : Int)))
      ∧ (∀ fuel, fuel ≤ k → cordic_calc fuel yval zval status angle = none))
    ∧ ((∀ i, (status i).testBit 0 = false) →
        ∀ fuel, cordic_calc fuel yval zval status angle = none) := by
  refine ⟨fun k hk hlt => ⟨fun fuel hf => ?_, fun fuel hf => ?_⟩, fun h fuel => ?_⟩
  · have hp := cordic_poll_done status k fuel 0
      (fun j hj => by simpa using hlt j hj) (by simpa using hk) hf
    simp only [cordic_calc, hp, mask16_to_u32, cordic_ret_eq, status_reads, Nat.zero_add]
  · have hp := cordic_poll_spin status fuel 0
      (fun j hj => by simpa using hlt j (by omega))
    simp only [cordic_calc, hp]
  · have hp := cordic_poll_spin status fuel 0 (fun j _ => h (0 + j))
    simp only [cordic_calc, hp]

/-- Witness of C6: the engine raises the done bit at the fourth poll
(index 3); with operands -1 and 2 and 0x1F000 in the angle register. -/
theorem cordic_calc_protocol_witness :
    cordic_calc 4 (-1) 2 (fun i => if i < 3 then 0 else 1) 0x1F000 =
        some ([wr 0x43C00000 0xFFFF, wr 0x43C00004 2, wr 0x43C00008 0, wr 0x43C00008 1,
               rd 0x43C0000C 0, rd 0x43C0000C 0, rd 0x43C0000C 0, rd 0x43C0000C 1,
               rd 0x43C00010 0x1F000], 0xF000)
      ∧ cordic_calc 3 (-1) 2 (fun i => if i < 3 then 0 else 1) 0x1F000 = none
      ∧ cordic_calc 1000 (-1) 2 (fun _ => 0) 0x1F000 = none := by
  have h := cordic_calc_protocol (-1) 2 (fun i => if i < 3 then 0 else 1) 0x1F000
  have h3 := h.1 3 (by decide) (by intro j hj; interval_cases j <;> decide)
  refine ⟨?_, h3.2 3 (by decide), ?_⟩
  · rw [h3.1 4 (by decide)]; decide
  · exact (cordic_calc_protocol (-1) 2 (fun _ => 0) 0x1F000).2 (fun _ => by decide) 1000

/-! ## Single-precision arithmetic: exactness -/

theorem round_half_even_intCast (z : ℤ) : round_half_even (z : ℚ) = z := by
  unfold round_half_even
  simp

theorem f32_exp_le (m e : ℤ) (hm0 : m ≠ 0) (hm : |m| < 2 ^ 24) (he : -149 ≤ e) :
    f32_exp ((m : ℚ) * 2 ^ e) ≤ e := by
  have h2 : (0 : ℚ) < 2 ^ e := zpow_pos (by norm_num) e
  have hpos : (0 : ℚ) < |(m : ℚ) * 2 ^ e| :=
    abs_pos.mpr (mul_ne_zero (Int.cast_ne_zero.mpr hm0) h2.ne')
  have hlt : |(m : ℚ) * 2 ^ e| < ((2 : ℕ) : ℚ) ^ (24 + e) := by
    rw [abs_mul, abs_of_pos h2, zpow_add₀ (by norm_num)]
    apply mul_lt_mul_of_pos_right _ (by simpa using h2)
    have : ((|m| : ℤ) : ℚ) < ((2 ^ 24 : ℤ) : ℚ) := Int.cast_lt.mpr hm
    norm_num at this ⊢
    exact this
  have hlog := (Int.lt_zpow_iff_log_lt (b := 2) (by norm_num) hpos).mp hlt
  unfold f32_exp
  apply max_le <;> omega

/-- A rational `m * 2 ^ e` with `|m| < 2 ^ 24` and `-149 ≤ e` is a `float`:
rounding leaves it as it is. -/
theorem f32_round_exact (m e : ℤ) (hm : |m| < 2 ^ 24) (he : -149 ≤ e) :
    f32_round ((m : ℚ) * 2 ^ e) = (m : ℚ) * 2 ^ e := by
  by_cases hm0 : m = 0
  · simp [f32_round, hm0]
  have h2 : (0 : ℚ) < 2 ^ e := zpow_pos (by norm_num) e
  have hq : (m : ℚ) * 2 ^ e ≠ 0 := mul_ne_zero (Int.cast_ne_zero.mpr hm0) h2.ne'
  have hle := f32_exp_le m e hm0 hm he
  obtain ⟨k, hk⟩ : ∃ k : ℕ, e = f32_exp ((m : ℚ) * 2 ^ e) + k :=
    ⟨(e - f32_exp ((m : ℚ) * 2 ^ e)).toNat, by omega⟩
  have hE : (0 : ℚ) < 2 ^ f32_exp ((m : ℚ) * 2 ^ e) := zpow_pos (by norm_num) _
  have hsplit : (2 : ℚ) ^ e = 2 ^ f32_exp ((m : ℚ) * 2 ^ e) * 2 ^ k := by
    conv_lhs => rw [hk]
    rw [zpow_add₀ (by norm_num), zpow_natCast]
  have hquot : (m : ℚ) * 2 ^ e / 2 ^ f32_exp ((m : ℚ) * 2 ^ e) = ((m * 2 ^ k : ℤ) : ℚ) := by
    rw [div_eq_iff hE.ne']
    conv_lhs => rw [hsplit]
    push_cast
    ring
  rw [f32_round, if_neg hq, hquot, round_half_even_intCast]
  conv_rhs => rw [hsplit]
  push_cast
  ring

theorem f32_round_intCast (v : ℤ) (hv : |v| < 2 ^ 24) : f32_round (v : ℚ) = v := by
  have h := f32_round_exact v 0 hv (by norm_num)
  simpa using h

theorem q312_to_rad_eq (v : ℤ) (hlo : -32768 ≤ v) (hhi : v ≤ 32767) :
    q312_to_rad v = (v : ℚ) / 4096 := by
  have hv : |v| < 2 ^ 24 := by rw [abs_lt]; constructor <;> norm_num <;> omega
  have h4096 : f32_round 4096 = 4096 := by
    have := f32_round_intCast 4096 (by norm_num)
    simpa using this
  have hdiv : (v : ℚ) / 4096 = (v : ℚ) * 2 ^ (-12 : ℤ) := by
    rw [div_eq_mul_inv]; norm_num
  unfold q312_to_rad
  rw [f32_round_intCast v hv, h4096, hdiv]
  exact f32_round_exact v (-12) hv (by norm_num)

theorem q312_encode_range (r : ℝ) (hlo : -8 ≤ r) (hhi : r ≤ 32767 / 4096) :
    -32768 ≤ q312_encode r ∧ q312_encode r ≤ 32767 := by
  unfold q312_encode
  rw [round_eq]
  constructor
  · rw [Int.le_floor]
    push_cast
    linarith
  · have : ⌊r * 4096 + 1 / 2⌋ < 32768 := by
      rw [Int.floor_lt]
      push_cast
      linarith
    omega

theorem q312_encode_close (r : ℝ) : |((q312_encode r : ℤ) : ℝ) / 4096 - r| ≤ 1 / 8192 := by
  unfold q312_encode
  have h := abs_sub_round (r * 4096)
  rw [abs_le] at h ⊢
  constructor <;> linarith [h.1, h.2]

/-- C8: `q312_to_rad` decodes every signed 16-bit `v` exactly as the rational
`v / 4096`, which is a `float` (so 4096 decodes to 1 and -4096 to -1); for
every real `r` with `-8 ≤ r ≤ 32767/4096` the nearest integer to `r * 4096`
is a signed 16-bit value and decodes to a value within 1/4096 of `r`; and
for every signed 16-bit `v`, encoding `q312_to_rad v` gives back `v`. -/
theorem q312_round_trip :
    (∀ v : ℤ, -32768 ≤ v → v ≤ 32767 →
        q312_to_rad v = (v : ℚ) / 4096 ∧ f32_round ((v : ℚ) / 4096) = (v : ℚ) / 4096)
      ∧ q312_to_rad 4096 = 1 ∧ q312_to_rad (-4096) = -1
      ∧ (∀ r : ℝ, -8 ≤ r → r ≤ 32767 / 4096 →
          -32768 ≤ q312_encode r ∧ q312_encode r ≤ 32767
            ∧ |((q312_to_rad (q312_encode r) : ℚ) : ℝ) - r| ≤ 1 / 4096)
      ∧ (∀ v : ℤ, -32768 ≤ v → v ≤ 32767 → q312_encode (q312_to_rad v) = v) := by
  refine ⟨fun v hlo hhi => ⟨q312_to_rad_eq v hlo hhi, ?_⟩, ?_, ?_, fun r hlo hhi => ?_,
    fun v hlo hhi => ?_⟩
  · have hv : |v| < 2 ^ 24 := by rw [abs_lt]; constructor <;> norm_num <;> omega
    have hdiv : (v : ℚ) / 4096 = (v : ℚ) * 2 ^ (-12 : ℤ) := by
      rw [div_eq_mul_inv]; norm_num
    rw [hdiv]
    exact f32_round_exact v (-12) hv (by norm_num)
  · rw [q312_to_rad_eq 4096 (by norm_num) (by norm_num)]; norm_num
  · rw [q312_to_rad_eq (-4096) (by norm_num) (by norm_num)]; norm_num
  · have hr := q312_encode_range r hlo hhi
    refine ⟨hr.1, hr.2, ?_⟩
    rw [q312_to_rad_eq _ hr.1 hr.2]
    push_cast
    exact le_trans (q312_encode_close r) (by norm_num)
  · rw [q312_to_rad_eq v hlo hhi]
    unfold q312_encode
    rw [div_mul_cancel₀ _ (by norm_num : (4096 : ℚ) ≠ 0)]
    exact round_intCast v

/-- Witness of C8: 2048 decodes to 1/2 and encodes back; 3/10 survives the
round trip within one unit in the last place. -/
theorem q312_round_trip_witness :
    q312_to_rad 2048 = 1 / 2
      ∧ q312_encode (q312_to_rad 2048) = 2048
      ∧ |((q312_to_rad (q312_encode (3 / 10 : ℝ)) : ℚ) : ℝ) - 3 / 10| ≤ 1 / 4096 := by
  refine ⟨?_, q312_round_trip.2.2.2.2 2048 (by norm_num) (by norm_num),
    (q312_round_trip.2.2.2.1 (3 / 10) (by norm_num) (by norm_num)).2.2⟩
  rw [(q312_round_trip.1 2048 (by norm_num) (by norm_num)).1]
  norm_num

theorem to_short_range (n : Int) : -32768 ≤ to_short n ∧ to_short n ≤ 32767 := by
  unfold to_short
  omega

theorem to_short_mod (r : Nat) :
    to_short ((r % 65536 : Nat) : Int) =
      if r % 65536 < 32768 then ((r % 65536 : Nat) : Int) else ((r % 65536 : Nat) : Int) - 65536 := by
  unfold to_short
  split <;> omega

theorem cordic_calc_value (fuel : Nat) (y z : Int) (status : Nat → Nat) (r : Nat)
    (tr : List Event) (v : Int) (h : cordic_calc fuel y z status r = some (tr, v)) :
    v = cordic_ret r := by
  unfold cordic_calc at h
  split at h
  · exact absurd h (by simp)
  · simp only [Option.some.injEq, Prod.mk.injEq] at h
    exact h.2.symm

theorem cordic_calc_returns (fuel : Nat) (y z : Int) (status : Nat → Nat) (r : Nat)
    (h : ∃ k, k < fuel ∧ (status k).testBit 0 = true) :
    ∃ tr, cordic_calc fuel y z status r = some (tr, cordic_ret r) := by
  classical
  obtain ⟨k0, hk0f, hk0⟩ := h
  have hex : ∃ k, (status k).testBit 0 = true := ⟨k0, hk0⟩
  have hmin : ∀ j, j < Nat.find hex → ¬ (status j).testBit 0 = true :=
    fun j hj => Nat.find_min hex hj
  have hspec := Nat.find_spec hex
  have hle : Nat.find hex ≤ k0 := Nat.find_min' hex hk0
  have hp := cordic_poll_done status (Nat.find hex) fuel 0
    (fun j hj => by simpa using hmin j hj) (by simpa using hspec) (by omega)
  simp only [cordic_calc, hp]
  exact ⟨_, rfl⟩

/-- Counterexample to C7 as stated: with 0xF000 (the Q3.12 pattern of -1.0)
in the angle register, `cordic_calc` returns 61440, outside
[-32768, 32767] and different from the signed reading -4096 of the low 16
bits; the report of that sample shows the raw value 61440 beside the radian
value -1, and 61440 / 4096 is 15. -/
theorem cordic_calc_not_signed :
    ¬ (∀ (fuel : Nat) (y z : Int) (status : Nat → Nat) (r : Nat) (tr : List Event) (v : Int),
        cordic_calc fuel y z status r = some (tr, v) →
          -32768 ≤ v ∧ v ≤ 32767 ∧ v = to_short r)
      ∧ (stmt_calc (init 0 0 0 0) 0xF000).out = [print (Msg.sample 0 0 0 61440 (-1))]
      ∧ ((61440 : ℚ) / 4096 ≠ -1) := by
  refine ⟨fun h => ?_, ?_, by norm_num⟩
  · obtain ⟨tr, htr⟩ := cordic_calc_returns 1 0 0 (fun _ => 1) 0xF000 ⟨0, by decide, by decide⟩
    have h1 := h 1 0 0 (fun _ => 1) 0xF000 tr _ htr
    have hr : cordic_ret 0xF000 = 61440 := by decide
    rw [hr] at h1
    omega
  · have hr : cordic_ret 0xF000 = 61440 := by decide
    have hs : to_short 61440 = -4096 := by decide
    have hq : q312_to_rad (-4096) = -1 := by
      rw [q312_to_rad_eq (-4096) (by norm_num) (by norm_num)]; norm_num
    simp only [stmt_calc, hr, hs, hq, init]
    simp

/-- C7 (amended): for every angle-register content `r`, `cordic_calc` (which
returns once the done bit shows within the allowed polls) returns the low
16 bits of `r` as an integer in [0, 65535]; the caller's `(short)` cast of
it lies in [-32768, 32767] and is the two's-complement reading of those 16
bits, and `q312_to_rad` of the cast, the radian value `hw_rad` of the main
loop and of its report, is that signed value divided by 4096. The raw value
`hw_ang` in the report is the uncast return value; divided by 4096 it equals
the radian value beside it when bit 15 of `r` is clear. -/
theorem cordic_calc_q312 (r : Nat) :
    (∀ (fuel : Nat) (y z : Int) (status : Nat → Nat),
        (∃ k, k < fuel ∧ (status k).testBit 0 = true) →
        ∃ tr, cordic_calc fuel y z status r = some (tr, ((r % 65536 : Nat) : Int)))
      ∧ (∀ (fuel : Nat) (y z : Int) (status : Nat → Nat) (tr : List Event) (v : Int),
          cordic_calc fuel y z status r = some (tr, v) →
            v = ((r % 65536 : Nat) : Int) ∧ 0 ≤ v ∧ v ≤ 65535
              ∧ -32768 ≤ to_short v ∧ to_short v ≤ 32767
              ∧ to_short v = (if r % 65536 < 32768 then v else v - 65536)
              ∧ q312_to_rad (to_short v) = (to_short v : ℚ) / 4096)
      ∧ (∀ m : Main,
          (stmt_calc m r).hw_ang = ((r % 65536 : Nat) : Int)
            ∧ (stmt_calc m r).hw_rad = (to_short (stmt_calc m r).hw_ang : ℚ) / 4096
            ∧ (∀ c y z a q, print (Msg.sample c y z a q) ∈ (stmt_calc m r).out →
                print (Msg.sample c y z a q) ∉ m.out →
                a = (stmt_calc m r).hw_ang ∧ q = (stmt_calc m r).hw_rad)
            ∧ (r % 65536 < 32768 →
                ((stmt_calc m r).hw_ang : ℚ) / 4096 = (stmt_calc m r).hw_rad)) := by
  have hrad : ∀ v : Int, q312_to_rad (to_short v) = (to_short v : ℚ) / 4096 := fun v =>
    q312_to_rad_eq _ (to_short_range v).1 (to_short_range v).2
  refine ⟨fun fuel y z status h => ?_, fun fuel y z status tr v h => ?_, fun m => ?_⟩
  · rw [← cordic_ret_eq]
    exact cordic_calc_returns fuel y z status r h
  · have hv := cordic_calc_value fuel y z status r tr v h
    rw [cordic_ret_eq] at hv
    subst hv
    refine ⟨rfl, by omega, by omega, (to_short_range _).1, (to_short_range _).2,
      to_short_mod r, hrad _⟩
  · have ha : (stmt_calc m r).hw_ang = ((r % 65536 : Nat) : Int) := by
      simp only [stmt_calc, cordic_ret_eq]
    have hq : (stmt_calc m r).hw_rad = (to_short (stmt_calc m r).hw_ang : ℚ) / 4096 := by
      simp only [stmt_calc, hrad]
    refine ⟨ha, hq, ?_, ?_⟩
    · intro c y z a q hin hnot
      have hout : (stmt_calc m r).out = m.out ++
          (if Int.tmod m.smpl_cnt 10 = 0 then
            [print (Msg.sample m.smpl_cnt m.loc_y m.loc_z (stmt_calc m r).hw_ang
              (stmt_calc m r).hw_rad)] else []) := rfl
      rw [hout, List.mem_append] at hin
      rcases hin with hin | hin
      · exact absurd hin hnot
      · split at hin
        · simp only [List.mem_singleton, Event.print.injEq, Msg.sample.injEq] at hin
          exact ⟨hin.2.2.2.1, hin.2.2.2.2⟩
        · simp at hin
    · intro hlt
      rw [hq, ha, to_short_mod, if_pos hlt]

/-- Witness of C7 (amended): 0x1000 in the angle register is returned as
4096, reported as raw 4096 and as 1 radian. -/
theorem cordic_calc_q312_witness :
    (∃ tr, cordic_calc 1 0 0 (fun _ => 1) 0x1000 = some (tr, 4096))
      ∧ ((stmt_calc (init 0 0 0 0) 0x1000).hw_ang : ℚ) / 4096
          = (stmt_calc (init 0 0 0 0) 0x1000).hw_rad := by
  have h := cordic_calc_q312 0x1000
  exact ⟨h.1 1 0 0 (fun _ => 1) ⟨0, by decide, by decide⟩,
    (h.2.2 (init 0 0 0 0)).2.2.2 (by decide)⟩

/-! ## Shared reading slot and sample counter: theorems -/

theorem run_nil (m : Main) : run m [] = m := rfl

theorem run_cons (m : Main) (a : Action) (acts : List Action) :
    run m (a :: acts) = run (step m a) acts := rfl

theorem run_append (m : Main) (as bs : List Action) :
    run m (as ++ bs) = run (run m as) bs := by
  simp only [run, List.foldl_append]

theorem run_ticks_snoc (m : Main) (rs : List (Nat × Nat)) (t : Nat × Nat) :
    run m (ticks_of (rs ++ [t])) =
      { run m (ticks_of rs) with
        slot := { glob_y := (tick_pair t.1 t.2).1, glob_z := (tick_pair t.1 t.2).2,
                  data_rdy := 1 } } := by
  simp only [ticks_of, List.map_append, run_append, List.map_cons, List.map_nil, run_cons,
    run_nil, step, tmr_isr, tick_pair]

theorem run_ticks_rest (m : Main) (rs : List (Nat × Nat)) :
    (run m (ticks_of rs)).calls = m.calls ∧ (run m (ticks_of rs)).out = m.out
      ∧ (run m (ticks_of rs)).smpl_cnt = m.smpl_cnt ∧ (run m (ticks_of rs)).pc = m.pc := by
  induction rs generalizing m with
  | nil => exact ⟨rfl, rfl, rfl, rfl⟩
  | cons t rs ih =>
    have h := ih (step m (Action.tick t.1 t.2))
    simpa only [ticks_of, List.map_cons, run_cons, step] using h

theorem loop_iter_idle (m : Main) (angle : Nat) (h : m.slot.data_rdy = 0) :
    loop_iter m angle = m := by
  simp [loop_iter, h]

theorem loop_iter_eq_run (m : Main) (angle : Nat) (hpc : m.pc = Pc.test) :
    loop_iter m angle =
      if m.slot.data_rdy ≠ 0 then
        run m [Action.main angle, Action.main angle, Action.main angle, Action.main angle,
          Action.main angle]
      else run m [Action.main angle] := by
  by_cases h : m.slot.data_rdy = 0
  · have hm : stmt_test m = m := by
      unfold stmt_test
      rw [if_neg (by simpa using h), ← hpc]
    simp only [loop_iter, h, ne_eq, not_true_eq_false, if_false, run_cons, run_nil, step, hpc, hm]
  · simp only [loop_iter, h, ne_eq, not_false_eq_true, if_true, run_cons, run_nil, step, hpc,
      stmt_test, stmt_copy_y, stmt_copy_z, stmt_clear]

/-- C2: after `N ≥ 1` ticks with no consumer step in between, the slot holds
exactly the pair written by the last tick with `data_rdy = 1`, and the ticks
change nothing else; the next consumer step (the body of `if(data_rdy)`)
copies out exactly that pair, passes it to `cordic_calc` and leaves
`data_rdy = 0`; an iteration of the loop that finds `data_rdy = 0` changes
nothing, in particular the iteration after a consumption: one reading at
most is pending. -/
theorem slot_last_write_wins (m : Main) (N : Nat) (hN : 1 ≤ N) (rs : List (Nat × Nat))
    (hlen : rs.length = N) (angle angle' : Nat) :
    ∃ t, rs.getLast? = some t
      ∧ (run m (ticks_of rs)).slot =
          { glob_y := (tick_pair t.1 t.2).1, glob_z := (tick_pair t.1 t.2).2, data_rdy := 1 }
      ∧ (run m (ticks_of rs)).calls = m.calls
      ∧ (stmt_clear (stmt_copy_z (stmt_copy_y (run m (ticks_of rs))))).loc_y = (tick_pair t.1 t.2).1
      ∧ (stmt_clear (stmt_copy_z (stmt_copy_y (run m (ticks_of rs))))).loc_z = (tick_pair t.1 t.2).2
      ∧ (stmt_clear (stmt_copy_z (stmt_copy_y (run m (ticks_of rs))))).slot.data_rdy = 0
      ∧ (loop_iter (run m (ticks_of rs)) angle).loc_y = (tick_pair t.1 t.2).1
      ∧ (loop_iter (run m (ticks_of rs)) angle).loc_z = (tick_pair t.1 t.2).2
      ∧ (loop_iter (run m (ticks_of rs)) angle).slot.data_rdy = 0
      ∧ (loop_iter (run m (ticks_of rs)) angle).calls = m.calls ++ [tick_pair t.1 t.2]
      ∧ loop_iter (loop_iter (run m (ticks_of rs)) angle) angle'
          = loop_iter (run m (ticks_of rs)) angle
      ∧ (∀ m0 : Main, m0.slot.data_rdy = 0 → loop_iter m0 angle = m0) := by
  obtain ⟨rs', t, rfl⟩ : ∃ rs' t, rs = rs' ++ [t] := by
    rcases List.eq_nil_or_concat rs with h | ⟨rs', t, h⟩
    · subst h; simp at hlen; omega
    · exact ⟨rs', t, by rw [h, List.concat_eq_append]⟩
  have hc := (run_ticks_rest m rs').1
  have hrdy : (loop_iter (run m (ticks_of (rs' ++ [t]))) angle).slot.data_rdy = 0 := by
    simp [run_ticks_snoc, loop_iter, stmt_calc, stmt_clear, stmt_copy_z, stmt_copy_y]
  refine ⟨t, by simp, ?_, ?_, ?_, ?_, ?_, ?_, ?_, hrdy, ?_, loop_iter_idle _ _ hrdy,
    fun m0 h => loop_iter_idle m0 angle h⟩
  · rw [run_ticks_snoc]
  · rw [run_ticks_snoc]; exact hc
  · simp [run_ticks_snoc, stmt_clear, stmt_copy_z, stmt_copy_y]
  · simp [run_ticks_snoc, stmt_clear, stmt_copy_z, stmt_copy_y]
  · simp [run_ticks_snoc, stmt_clear, stmt_copy_z, stmt_copy_y]
  · simp [run_ticks_snoc, loop_iter, stmt_calc, stmt_clear, stmt_copy_z, stmt_copy_y]
  · simp [run_ticks_snoc, loop_iter, stmt_calc, stmt_clear, stmt_copy_z, stmt_copy_y]
  · simp [run_ticks_snoc, loop_iter, stmt_calc, stmt_clear, stmt_copy_z, stmt_copy_y, hc]

/-- Witness of C2: three ticks writing (1, 1), (2, 2), (3, 3), then one
iteration of the loop: it consumes (3, 3). -/
theorem slot_last_write_wins_witness :
    (run (init 0 0 0 0) (ticks_of [(0x01000000, 0x100), (0x02000000, 0x200),
        (0x03000000, 0x300)])).slot = { glob_y := 3, glob_z := 3, data_rdy := 1 }
      ∧ (loop_iter (run (init 0 0 0 0) (ticks_of [(0x01000000, 0x100), (0x02000000, 0x200),
          (0x03000000, 0x300)])) 0).calls = [(3, 3)] := by
  obtain ⟨t, ht, h⟩ := slot_last_write_wins (init 0 0 0 0) 3 (by decide)
    [(0x01000000, 0x100), (0x02000000, 0x200), (0x03000000, 0x300)] rfl 0 0
  have ht' : t = (0x03000000, 0x300) := by
    have : [(0x01000000, 0x100), (0x02000000, 0x200), (0x03000000, 0x300)].getLast?
        = some ((0x03000000, 0x300) : Nat × Nat) := rfl
    rw [this] at ht
    exact (Option.some.inj ht).symm
  subst ht'
  have hp : tick_pair 0x03000000 0x300 = (3, 3) := by decide
  refine ⟨?_, ?_⟩
  · rw [h.1, hp]
  · rw [h.2.2.2.2.2.2.2.2.1, hp]; rfl

theorem due_reports_succ (n : Nat) :
    due_reports (n + 1) = due_reports n ++ (if n % 10 = 0 then [(n : Int)] else []) := by
  unfold due_reports
  rw [List.range_succ, List.filter_append, List.map_append]
  by_cases h : n % 10 = 0 <;> simp [h]

theorem report_indices_append (a b : List Event) :
    report_indices (a ++ b) = report_indices a ++ report_indices b := by
  simp only [report_indices, List.filterMap_append]

theorem counter_inv_step (m : Main) (a : Action) (h : counter_inv m) : counter_inv (step m a) := by
  cases a with
  | tick rx0 rx1 => simpa only [counter_inv, step] using h
  | main angle =>
    simp only [step]
    split
    · simp only [stmt_test]
      split <;> exact h
    · exact h
    · exact h
    · exact h
    · intro hlt
      have hlen : (stmt_calc m angle).calls.length = m.calls.length + 1 := by
        simp [stmt_calc]
      simp only [hlen] at hlt ⊢
      obtain ⟨hc, hr⟩ := h (by omega)
      have htmod : Int.tmod m.smpl_cnt 10 = 0 ↔ m.calls.length % 10 = 0 := by
        rw [hc, Int.tmod_eq_emod (by omega) (by norm_num)]
        omega
      constructor
      · simp only [stmt_calc, hc, to_int]
        omega
      · have hout : (stmt_calc m angle).out = m.out ++
            (if Int.tmod m.smpl_cnt 10 = 0 then
              [print (Msg.sample m.smpl_cnt m.loc_y m.loc_z (stmt_calc m angle).hw_ang
                (stmt_calc m angle).hw_rad)] else []) := rfl
        rw [hout, report_indices_append, hr, due_reports_succ]
        congr 1
        by_cases h10 : m.calls.length % 10 = 0
        · rw [if_pos (htmod.mpr h10), if_pos h10, ← hc]
          rfl
        · rw [if_neg (fun hh => h10 (htmod.mp hh)), if_neg h10]
          rfl

theorem counter_inv_run (acts : List Action) : ∀ m : Main, counter_inv m → counter_inv (run m acts) := by
  induction acts with
  | nil => exact fun m h => h
  | cons a acts ih => exact fun m h => ih (step m a) (counter_inv_step m a h)

/-- C4: starting from `smpl_cnt = 0`, in every execution of the main loop
interleaved with ticks, once the loop has processed `n < 2 ^ 31` readings
(called `cordic_calc` and reached `smpl_cnt++` `n` times) the counter is `n`
and the detailed reports emitted are exactly those of the readings with
zero-based index `k < n`, `k mod 10 = 0`, in order; after 25 readings these
are the 3 reports of readings 0, 10 and 20. -/
theorem sample_counter_gating (ly lz ha : Int) (hr : ℚ) (acts : List Action) (n : Nat)
    (hn : n < 2 ^ 31) (hproc : (run (init ly lz ha hr) acts).calls.length = n) :
    (run (init ly lz ha hr) acts).smpl_cnt = (n : Int)
      ∧ report_indices (run (init ly lz ha hr) acts).out
          = ((List.range n).filter (fun k => k % 10 = 0)).map Int.ofNat
      ∧ (n = 25 → report_indices (run (init ly lz ha hr) acts).out = [0, 10, 20]
          ∧ (report_indices (run (init ly lz ha hr) acts).out).length = 3) := by
  have h0 : counter_inv (init ly lz ha hr) := by
    intro _
    exact ⟨rfl, rfl⟩
  have h := counter_inv_run acts _ h0 (by rw [hproc]; exact hn)
  rw [hproc] at h
  refine ⟨h.1, h.2, fun h25 => ?_⟩
  subst h25
  rw [h.2]
  exact ⟨by decide, by decide⟩

set_option maxRecDepth 100000 in
/-- Witness of C4: 25 readings processed, counter 25, reports 0, 10, 20. -/
theorem sample_counter_gating_witness :
    (run (init 0 0 0 0) twenty_five_readings).calls.length = 25
      ∧ (run (init 0 0 0 0) twenty_five_readings).smpl_cnt = 25
      ∧ report_indices (run (init 0 0 0 0) twenty_five_readings).out = [0, 10, 20] := by
  have hlen : (run (init 0 0 0 0) twenty_five_readings).calls.length = 25 := by decide
  have h := sample_counter_gating 0 0 0 0 twenty_five_readings 25 (by decide) hlen
  exact ⟨hlen, h.1, (h.2.2 rfl).1⟩

/-! ## Interleaving of the timer interrupt with the main loop: theorems -/

theorem step_tick (m : Main) (rx0 rx1 : Nat) :
    step m (Action.tick rx0 rx1) =
      { m with slot := { glob_y := (tick_pair rx0 rx1).1, glob_z := (tick_pair rx0 rx1).2,
                         data_rdy := 1 } } := by
  simp only [step, tmr_isr, tick_pair]

theorem iter_inv_tick (W : List (Int × Int)) (d : Bool) (m : Main) (h : iter_inv W d m)
    (rx0 rx1 : Nat) :
    iter_inv (W ++ [tick_pair rx0 rx1]) (d || decide (m.pc = Pc.copy_z))
      (step m (Action.tick rx0 rx1)) := by
  obtain ⟨h1, _, _, h4⟩ := h
  rw [step_tick]
  simp only [iter_inv]
  refine ⟨fun _ => ?_, fun _ => one_ne_zero, fun hp hd => ?_, fun hp hd => ?_⟩
  · exact List.mem_append_right _ (List.mem_singleton.mpr rfl)
  · simp [hp] at hd
  · have hd' : d = false := by
      cases d
      · rfl
      · simp at hd
    exact List.mem_append_left _ (h4 hp hd')

theorem iter_inv_main (W : List (Int × Int)) (d : Bool) (m : Main) (angle : Nat)
    (h : iter_inv W d m) :
    (m.pc ≠ Pc.compute → iter_inv W d (step m (Action.main angle)))
      ∧ (m.pc = Pc.compute → iter_inv W false (step m (Action.main angle))
          ∧ (d = false → (m.loc_y, m.loc_z) ∈ W)) := by
  obtain ⟨h1, h2, h3, h4⟩ := h
  simp only [step]
  split
  next hpc =>
    refine ⟨fun _ => ?_, fun hc => by rw [hpc] at hc; cases hc⟩
    simp only [stmt_test]
    split
    next hr => exact ⟨h1, fun _ => hr, fun hp => by simp at hp, fun hp => by simp at hp⟩
    next hr => exact ⟨h1, fun hp => by simp at hp, fun hp => by simp at hp, fun hp => by simp at hp⟩
  next hpc =>
    refine ⟨fun _ => ?_, fun hc => by rw [hpc] at hc; cases hc⟩
    exact ⟨h1, fun _ => h2 (Or.inl hpc), fun _ _ => rfl, fun hp => by simp [stmt_copy_y] at hp⟩
  next hpc =>
    refine ⟨fun _ => ?_, fun hc => by rw [hpc] at hc; cases hc⟩
    refine ⟨h1, fun hp => by simp [stmt_copy_z] at hp, fun hp => by simp [stmt_copy_z] at hp,
      fun _ hd => ?_⟩
    have hy := h3 hpc hd
    have hw := h1 (h2 (Or.inr hpc))
    simp only [stmt_copy_z, hy]
    exact hw
  next hpc =>
    refine ⟨fun _ => ?_, fun hc => by rw [hpc] at hc; cases hc⟩
    exact ⟨fun hr => by simp [stmt_clear] at hr, fun hp => by simp [stmt_clear] at hp,
      fun hp => by simp [stmt_clear] at hp, fun _ hd => h4 (Or.inl hpc) hd⟩
  next hpc =>
    refine ⟨fun hc => absurd hpc hc, fun _ => ⟨?_, fun hd => h4 (Or.inr hpc) hd⟩⟩
    exact ⟨h1, fun hp => by simp [stmt_calc] at hp, fun hp => by simp [stmt_calc] at hp,
      fun hp => by simp [stmt_calc] at hp⟩

theorem mem_written_mono (W W' : List (Int × Int)) (p : Int × Int) (h : p ∈ W) : p ∈ W ++ W' :=
  List.mem_append_left _ h

theorem flagged_calls_cons (m : Main) (d : Bool) (a : Action) (acts : List Action) :
    flagged_calls m d (a :: acts) =
      (flag_step m d a).2 ++ flagged_calls (step m a) (flag_step m d a).1 acts := rfl

theorem flagged_calls_tick (m : Main) (d : Bool) (rx0 rx1 : Nat) (acts : List Action) :
    flagged_calls m d (Action.tick rx0 rx1 :: acts) =
      flagged_calls (step m (Action.tick rx0 rx1)) (d || decide (m.pc = Pc.copy_z)) acts := by
  rw [flagged_calls_cons]
  simp only [flag_step, List.nil_append]

theorem flagged_calls_compute (m : Main) (d : Bool) (angle : Nat) (acts : List Action)
    (hpc : m.pc = Pc.compute) :
    flagged_calls m d (Action.main angle :: acts) =
      ((m.loc_y, m.loc_z), d) :: flagged_calls (step m (Action.main angle)) false acts := by
  rw [flagged_calls_cons]
  simp only [flag_step, hpc, if_true, List.singleton_append]

theorem flagged_calls_other (m : Main) (d : Bool) (angle : Nat) (acts : List Action)
    (hpc : m.pc ≠ Pc.compute) :
    flagged_calls m d (Action.main angle :: acts) =
      flagged_calls (step m (Action.main angle)) d acts := by
  rw [flagged_calls_cons]
  simp only [flag_step, hpc, if_false, List.nil_append]

theorem flagged_calls_written (acts : List Action) : ∀ (m : Main) (d : Bool)
    (W : List (Int × Int)), iter_inv W d m →
    ∀ pf ∈ flagged_calls m d acts, pf.2 = false → pf.1 ∈ W ++ written acts := by
  induction acts with
  | nil => intro m d W _ pf hpf; simp [flagged_calls] at hpf
  | cons a acts ih =>
    intro m d W h pf hpf hfalse
    cases a with
    | tick rx0 rx1 =>
      rw [flagged_calls_tick] at hpf
      have h' := ih _ _ _ (iter_inv_tick W d m h rx0 rx1) pf hpf hfalse
      simpa only [written, List.append_assoc, List.singleton_append] using h'
    | main angle =>
      have hm := iter_inv_main W d m angle h
      by_cases hpc : m.pc = Pc.compute
      · rw [flagged_calls_compute _ _ _ _ hpc, List.mem_cons] at hpf
        rcases hpf with hpf | hpf
        · subst hpf
          exact mem_written_mono _ _ _ ((hm.2 hpc).2 hfalse)
        · have h' := ih _ _ _ (hm.2 hpc).1 pf hpf hfalse
          simpa only [written] using h'
      · rw [flagged_calls_other _ _ _ _ hpc] at hpf
        have h' := ih _ _ _ (hm.1 hpc) pf hpf hfalse
        simpa only [written] using h'

theorem step_main_calls (m : Main) (angle : Nat) :
    (step m (Action.main angle)).calls =
      if m.pc = Pc.compute then m.calls ++ [(m.loc_y, m.loc_z)] else m.calls := by
  simp only [step]
  split
  next hpc => simp only [stmt_test, hpc]; split <;> simp
  next hpc => simp [stmt_copy_y, hpc]
  next hpc => simp [stmt_copy_z, hpc]
  next hpc => simp [stmt_clear, hpc]
  next hpc => simp [stmt_calc, hpc]

theorem flagged_calls_fst (acts : List Action) : ∀ (m : Main) (d : Bool),
    (run m acts).calls = m.calls ++ (flagged_calls m d acts).map Prod.fst := by
  induction acts with
  | nil => intro m d; simp [flagged_calls, run_nil]
  | cons a acts ih =>
    intro m d
    cases a with
    | tick rx0 rx1 =>
      rw [run_cons, flagged_calls_tick, ih _ (d || decide (m.pc = Pc.copy_z)), step_tick]
    | main angle =>
      rw [run_cons]
      by_cases hpc : m.pc = Pc.compute
      · rw [flagged_calls_compute _ _ _ _ hpc, ih _ false, step_main_calls, if_pos hpc,
          List.map_cons, List.append_assoc, List.singleton_append]
      · rw [flagged_calls_other _ _ _ _ hpc, ih _ d, step_main_calls, if_neg hpc]

theorem flagged_calls_clean (acts : List Action) : ∀ (m : Main),
    tick_between_copies m acts = false →
    ∀ pf ∈ flagged_calls m false acts, pf.2 = false := by
  induction acts with
  | nil => intro m _ pf hpf; simp [flagged_calls] at hpf
  | cons a acts ih =>
    intro m hno pf hpf
    cases a with
    | tick rx0 rx1 =>
      simp only [tick_between_copies, Bool.or_eq_false_iff] at hno
      rw [flagged_calls_tick, hno.1, Bool.or_false] at hpf
      exact ih _ hno.2 pf hpf
    | main angle =>
      simp only [tick_between_copies] at hno
      by_cases hpc : m.pc = Pc.compute
      · rw [flagged_calls_compute _ _ _ _ hpc, List.mem_cons] at hpf
        rcases hpf with hpf | hpf
        · subst hpf; rfl
        · exact ih _ hno pf hpf
      · rw [flagged_calls_other _ _ _ _ hpc] at hpf
        exact ih _ hno pf hpf

theorem field_inv_tick (W : List (Int × Int)) (m : Main) (h : field_inv W m) (rx0 rx1 : Nat) :
    field_inv (W ++ [tick_pair rx0 rx1]) (step m (Action.tick rx0 rx1)) := by
  obtain ⟨h1, h2, h3, h4, h5⟩ := h
  have hmono1 : ∀ x, x ∈ W.map Prod.fst → x ∈ (W ++ [tick_pair rx0 rx1]).map Prod.fst := by
    intro x hx; rw [List.map_append]; exact List.mem_append_left _ hx
  have hmono2 : ∀ x, x ∈ W.map Prod.snd → x ∈ (W ++ [tick_pair rx0 rx1]).map Prod.snd := by
    intro x hx; rw [List.map_append]; exact List.mem_append_left _ hx
  rw [step_tick]
  simp only [field_inv]
  refine ⟨fun p hp => ⟨hmono1 _ (h1 p hp).1, hmono2 _ (h1 p hp).2⟩, fun _ => ?_,
    fun _ => one_ne_zero, fun hp => hmono1 _ (h4 hp), fun hp => hmono2 _ (h5 hp)⟩
  simp

theorem field_inv_main (W : List (Int × Int)) (m : Main) (angle : Nat) (h : field_inv W m) :
    field_inv W (step m (Action.main angle)) := by
  obtain ⟨h1, h2, h3, h4, h5⟩ := h
  simp only [step]
  split
  next hpc =>
    simp only [stmt_test]
    split
    next hr => exact ⟨h1, h2, fun _ => hr, fun hp => by simp at hp, fun hp => by simp at hp⟩
    next hr =>
      exact ⟨h1, h2, fun hp => by simp at hp, fun hp => by simp at hp, fun hp => by simp at hp⟩
  next hpc =>
    exact ⟨h1, h2, fun _ => h3 (Or.inl hpc), fun _ => (h2 (h3 (Or.inl hpc))).1,
      fun hp => by simp [stmt_copy_y] at hp⟩
  next hpc =>
    exact ⟨h1, h2, fun hp => by simp [stmt_copy_z] at hp, fun _ => h4 (Or.inl hpc),
      fun _ => (h2 (h3 (Or.inr hpc))).2⟩
  next hpc =>
    exact ⟨h1, fun hr => by simp [stmt_clear] at hr, fun hp => by simp [stmt_clear] at hp,
      fun _ => h4 (Or.inr (Or.inl hpc)), fun _ => h5 (Or.inl hpc)⟩
  next hpc =>
    refine ⟨fun p hp => ?_, h2, fun hp => by simp [stmt_calc] at hp,
      fun hp => by simp [stmt_calc] at hp, fun hp => by simp [stmt_calc] at hp⟩
    simp only [stmt_calc, List.mem_append, List.mem_singleton] at hp
    rcases hp with hp | hp
    · exact h1 p hp
    · rw [hp]; exact ⟨h4 (Or.inr (Or.inr hpc)), h5 (Or.inr hpc)⟩

theorem field_inv_run (acts : List Action) : ∀ (m : Main) (W : List (Int × Int)),
    field_inv W m → field_inv (W ++ written acts) (run m acts) := by
  induction acts with
  | nil => intro m W h; simpa [written, run_nil] using h
  | cons a acts ih =>
    intro m W h
    cases a with
    | tick rx0 rx1 =>
      have h' := ih _ _ (field_inv_tick W m h rx0 rx1)
      simpa only [written, run_cons, List.append_assoc, List.singleton_append] using h'
    | main angle =>
      have h' := ih _ _ (field_inv_main W m angle h)
      simpa only [written, run_cons] using h'

/-- Counterexample to C3 as stated: when the tick writing (2, 2) fires
between `loc_y = glob_y;` and `loc_z = glob_z;` of the iteration that
consumes the tick writing (1, 1), `cordic_calc` is called with (1, 2), a pair
that no tick wrote. -/
theorem torn_reading_reachable :
    ¬ (∀ (acts : List Action), ∀ p ∈ (run (init 0 0 0 0) acts).calls, p ∈ written acts) := by
  intro h
  have h1 := h torn_run (1, 2) (by decide)
  revert h1
  decide

/-- C3 (amended): in the step relation where `tmr_isr` runs atomically
between any two statements of the consumer loop, in every execution, every
`(loc_y, loc_z)` pair passed to `cordic_calc` by an iteration during which no
tick fired between its `loc_y = glob_y;` and its `loc_z = glob_z;` is the
`(Y, Z)` pair written by one single tick, whatever happened in the other
iterations (so every pair is, when no tick fires between the copies at
all); and every pair passed, interrupted iteration or not, has its Y written
by a tick of the execution and its Z written by a tick of the execution. -/
theorem reading_untorn_per_iteration (ly lz ha : Int) (hr : ℚ) (acts : List Action) :
    (flagged_calls (init ly lz ha hr) false acts).map Prod.fst = (run (init ly lz ha hr) acts).calls
      ∧ (∀ pf ∈ flagged_calls (init ly lz ha hr) false acts, pf.2 = false →
          pf.1 ∈ written acts)
      ∧ (tick_between_copies (init ly lz ha hr) acts = false →
          ∀ p ∈ (run (init ly lz ha hr) acts).calls, p ∈ written acts)
      ∧ (∀ p ∈ (run (init ly lz ha hr) acts).calls,
          p.1 ∈ (written acts).map Prod.fst ∧ p.2 ∈ (written acts).map Prod.snd) := by
  have hfst : (flagged_calls (init ly lz ha hr) false acts).map Prod.fst
      = (run (init ly lz ha hr) acts).calls := by
    rw [flagged_calls_fst acts (init ly lz ha hr) false]
    simp [init]
  have h0 : iter_inv [] false (init ly lz ha hr) := by
    refine ⟨fun h => ?_, fun h => ?_, fun h => ?_, fun h => ?_⟩ <;> simp [init] at *
  have hper : ∀ pf ∈ flagged_calls (init ly lz ha hr) false acts, pf.2 = false →
      pf.1 ∈ written acts := by
    intro pf hpf hfalse
    have h := flagged_calls_written acts _ _ _ h0 pf hpf hfalse
    simpa using h
  refine ⟨hfst, hper, fun hno p hp => ?_, ?_⟩
  · rw [← hfst, List.mem_map] at hp
    obtain ⟨pf, hpf, rfl⟩ := hp
    exact hper pf hpf (flagged_calls_clean acts _ hno pf hpf)
  · have h0' : field_inv [] (init ly lz ha hr) := by
      refine ⟨fun p hp => ?_, fun h => ?_, fun h => ?_, fun h => ?_, fun h => ?_⟩ <;>
        simp [init] at *
    have h := field_inv_run acts _ _ h0'
    simpa using h.1

/-- Witness of C3 (amended): in `mixed_run` the first iteration is interrupted
and passes the torn (1, 2); the two later iterations are not, and pass
(3, 3) and (4, 4), pairs of single ticks. In `clean_run` no tick falls
between the copies and the pair passed is (2, 2), the second tick's. -/
theorem reading_untorn_per_iteration_witness :
    flagged_calls (init 0 0 0 0) false mixed_run
        = [((1, 2), true), ((3, 3), false), ((4, 4), false)]
      ∧ (run (init 0 0 0 0) mixed_run).calls = [(1, 2), (3, 3), (4, 4)]
      ∧ tick_between_copies (init 0 0 0 0) mixed_run = true
      ∧ (3, 3) ∈ written mixed_run ∧ (4, 4) ∈ written mixed_run
      ∧ tick_between_copies (init 0 0 0 0) clean_run = false
      ∧ (run (init 0 0 0 0) clean_run).calls = [(2, 2)]
      ∧ (2, 2) ∈ written clean_run := by
  have hf : flagged_calls (init 0 0 0 0) false mixed_run
      = [((1, 2), true), ((3, 3), false), ((4, 4), false)] := by decide
  have hm := reading_untorn_per_iteration 0 0 0 0 mixed_run
  have hno : tick_between_copies (init 0 0 0 0) clean_run = false := by decide
  have hc : (run (init 0 0 0 0) clean_run).calls = [(2, 2)] := by decide
  refine ⟨hf, ?_, by decide, ?_, ?_, hno, hc, ?_⟩
  · rw [← hm.1, hf]; rfl
  · exact hm.2.1 ((3, 3), false) (by rw [hf]; simp) rfl
  · exact hm.2.1 ((4, 4), false) (by rw [hf]; simp) rfl
  · exact (reading_untorn_per_iteration 0 0 0 0 clean_run).2.2.1 hno (2, 2)
      (by rw [hc]; exact List.mem_singleton.mpr rfl)

end Cordic
